import Mathlib

/-!
Verification of the Analysis-Agent RAG pipeline core against its
specification.  The development shallowly embeds the Python modules
`src/ingestion/chunker.py`, `src/index/vector_store.py`,
`src/tools/base.py`, `src/tools/calculator.py` and
`src/agent/orchestrator.py` over `List Char` strings, and proves (or
refutes) the spec's testable properties about them.
-/

namespace AnalysisAgent

/-! ## Python string primitives

Text is modelled as `List Char`.  `isPySpace` covers the ASCII
whitespace characters recognised by Python's `str.strip` and by `\s`
in `re` patterns (the repository's inputs are limited to these).
-/

def isPySpace (c : Char) : Bool :=
  c = ' ' || c = '\t' || c = '\n' || c = '\r' || c = '\x0b' || c = '\x0c'

/-- Python `str.strip()`: remove leading and trailing whitespace. -/
def pyStrip (s : List Char) : List Char :=
  ((s.dropWhile isPySpace).reverse.dropWhile isPySpace).reverse

/-- The non-whitespace content of a string, used to state losslessness. -/
def nonWhite (s : List Char) : List Char :=
  s.filter (fun c => !isPySpace c)

/-- Python `sep.join(parts)`. -/
def joinSep (sep : List Char) : List (List Char) → List Char
  | [] => []
  | [p] => p
  | p :: q :: ps => p ++ sep ++ joinSep sep (q :: ps)

/-- Python `text.split("\n\n")`: greedy left-to-right split on the
first occurrence of the two-character separator. -/
def splitOnBlank : List Char → List (List Char)
  | [] => [[]]
  | '\n' :: '\n' :: rest => [] :: splitOnBlank rest
  | c :: rest =>
    match splitOnBlank rest with
    | [] => [[c]]
    | p :: ps => (c :: p) :: ps

/-- Sentence-terminal characters of the pattern `[。！？.!?\n]`
in `Chunker.split_by_sentences`. -/
def isSentTerm (c : Char) : Bool :=
  c = '。' || c = '！' || c = '？' || c = '.' || c = '!' || c = '?' || c = '\n'

/-- Worker for `sentSplitRaw`, structurally recursive on a fuel
argument so that it reduces in the kernel; one unit of fuel is spent
per character of the scanned prefix, so `length l` fuel always
suffices (`sentGo_fuel_irrel`). -/
def sentGo : Nat → List Char → List (List Char)
  | _, [] => [[]]
  | 0, c :: rest => [c :: rest]
  | fuel + 1, c :: rest =>
    if isSentTerm c then
      let ws := rest.takeWhile isPySpace
      let rest2 := rest.dropWhile isPySpace
      if ws.getLast? = some '\n' then
        [c] :: [] :: sentGo fuel rest2
      else
        [c] :: sentGo fuel rest2
    else
      match sentGo fuel rest with
      | [] => [[c]]
      | p :: ps => (c :: p) :: ps

/-- Python `re.split(r"(?<=[。！？.!?\n])\s*", text)`: cut after every
sentence-terminal character, greedily consuming the following
whitespace run; when that run is non-empty and ends in a newline
(itself a terminal character) the scanner also produces an adjacent
empty segment, matching `re.split`'s empty-match behaviour. -/
def sentSplitRaw (l : List Char) : List (List Char) := sentGo l.length l

/-! ## Chunker (`src/ingestion/chunker.py`) -/

/-- `Chunk` from `chunker.py`: the injected `{**metadata,
"chunk_index": index}` dictionary is modelled as the caller metadata
(of an arbitrary type `M`) paired with the injected index. -/
structure Chunk (M : Type) where
  text : List Char
  index : Nat
  metadata : M × Nat
  deriving Repr, DecidableEq

/-- `Chunk.char_count`. -/
def Chunk.char_count {M : Type} (c : Chunk M) : Nat := c.text.length

/-- `Chunker` configuration. -/
structure Chunker where
  chunk_size : Nat
  overlap : Nat
  min_chunk_size : Nat
  deriving Repr, DecidableEq

/-- The accumulate/flush loop shared verbatim by
`split_by_sentences` and `split_by_paragraphs` (they differ only in
the joining separator and in the unit list): if adding the next unit
would push the running character total past `chunk_size` and the
current group is non-empty, the current group is flushed (kept only if
the joined content reaches `min_chunk_size`); at the end the final
group is flushed the same way. -/
def accumulate {M : Type} (cfg : Chunker) (sep : List Char) (base : M) :
    List (List Char) → List (List Char) → Nat → Nat → List (Chunk M)
  | [], current, _clen, index =>
    if current.isEmpty then []
    else
      let content := joinSep sep current
      if cfg.min_chunk_size ≤ content.length then
        [⟨content, index, (base, index)⟩]
      else []
  | u :: us, current, clen, index =>
    if cfg.chunk_size < clen + u.length ∧ ¬ current.isEmpty then
      let content := joinSep sep current
      if cfg.min_chunk_size ≤ content.length then
        ⟨content, index, (base, index)⟩ ::
          accumulate cfg sep base us [u] u.length (index + 1)
      else
        accumulate cfg sep base us [u] u.length index
    else
      accumulate cfg sep base us (current ++ [u]) (clen + u.length) index

/-- The paragraph list of `split_by_paragraphs`:
`[p.strip() for p in text.split("\n\n") if p.strip()]`. -/
def paragraphsOf (text : List Char) : List (List Char) :=
  ((splitOnBlank text).map pyStrip).filter (fun p => !p.isEmpty)

/-- The sentence list of `split_by_sentences`:
`[s.strip() for s in re.split(pattern, text) if s.strip()]`. -/
def sentencesOf (text : List Char) : List (List Char) :=
  ((sentSplitRaw text).map pyStrip).filter (fun p => !p.isEmpty)

/-- `Chunker.split_by_paragraphs`. -/
def Chunker.split_by_paragraphs {M : Type} (cfg : Chunker)
    (text : List Char) (base : M) : List (Chunk M) :=
  accumulate cfg ['\n', '\n'] base (paragraphsOf text) [] 0 0

/-- `Chunker.split_by_sentences`. -/
def Chunker.split_by_sentences {M : Type} (cfg : Chunker)
    (text : List Char) (base : M) : List (Chunk M) :=
  accumulate cfg [' '] base (sentencesOf text) [] 0 0

/-- The body of `Chunker.split_fixed`'s `while start < len(text)` loop,
with explicit fuel; `none` models non-termination (fuel exhausted).
Each pass takes the window `text[start:start+chunk_size]`, strips it,
emits it when non-empty, and advances `start` by
`chunk_size - overlap` when `overlap < chunk_size`, else by
`chunk_size`. -/
def splitFixedGo {M : Type} (cfg : Chunker) (base : M) (text : List Char) :
    Nat → Nat → Nat → Option (List (Chunk M))
  | 0, _, _ => none
  | fuel + 1, start, index =>
    if start < text.length then
      let window := (text.drop start).take cfg.chunk_size
      let ct := pyStrip window
      let next := if cfg.overlap < cfg.chunk_size
        then start + cfg.chunk_size - cfg.overlap
        else start + cfg.chunk_size
      if ct.isEmpty then
        splitFixedGo cfg base text fuel next index
      else
        (splitFixedGo cfg base text fuel next (index + 1)).map
          (⟨ct, index, (base, index)⟩ :: ·)
    else
      some []

/-- `Chunker.split_fixed`, run with enough fuel for one loop pass per
character of the input plus the final test. -/
def Chunker.split_fixed {M : Type} (cfg : Chunker) (text : List Char)
    (base : M) : Option (List (Chunk M)) :=
  splitFixedGo cfg base text (text.length + 1) 0 0

/-- Concatenation of the texts of a chunk list. -/
def chunkTexts {M : Type} (cs : List (Chunk M)) : List Char :=
  (cs.map Chunk.text).flatten

/-- Sum of the lengths of a list of strings. -/
def sumLen (l : List (List Char)) : Nat := (l.map List.length).sum

/-! ## Vector store (`src/index/vector_store.py`)

The embedding provider and the ChromaDB collection are external
collaborators; `search`'s post-processing of a query reply and
`add_documents`' id generation are the repository's own code and are
embedded below.  Distances and scores are modelled as exact rationals.
-/

/-- `SearchResult` from `vector_store.py`. -/
structure SearchResult (M : Type) where
  text : List Char
  metadata : M
  score : ℚ
  id : List Char
  deriving DecidableEq

/-- One `collection.query` reply for a single query text: the
index-aligned `documents`, `metadatas`, `distances` and `ids` lists.
(The one-entry-per-query outer nesting of the ChromaDB reply is
dropped because `search` always queries exactly one text.) -/
structure QueryReply (M : Type) where
  documents : List (List Char)
  metadatas : List M
  distances : List ℚ
  ids : List (List Char)

/-- Python `zip` over four lists: truncates to the shortest. -/
def zip4 {α β γ δ : Type} : List α → List β → List γ → List δ →
    List (α × β × γ × δ)
  | a :: as, b :: bs, c :: cs, d :: ds => (a, b, c, d) :: zip4 as bs cs ds
  | _, _, _, _ => []

/-- Body of the result-conversion loop of `VectorStore.search`:
`score = 1 - distance`; the result is kept exactly when
`score >= min_score`. -/
def toResult {M : Type} (min_score : ℚ)
    (x : List Char × M × ℚ × List Char) : Option (SearchResult M) :=
  if min_score ≤ 1 - x.2.2.1 then
    some ⟨x.1, x.2.1, 1 - x.2.2.1, x.2.2.2⟩
  else none

/-- The result-conversion loop of `VectorStore.search`: when the reply
is non-empty, walk the zipped reply converting each entry. -/
def searchResults {M : Type} (reply : QueryReply M) (min_score : ℚ) :
    List (SearchResult M) :=
  if reply.documents.isEmpty then []
  else
    (zip4 reply.documents reply.metadatas reply.distances reply.ids).filterMap
      (toResult min_score)

/-- Decimal digit characters, as produced by Python string
formatting. -/
def digitChar : Nat → Char
  | 0 => '0' | 1 => '1' | 2 => '2' | 3 => '3' | 4 => '4'
  | 5 => '5' | 6 => '6' | 7 => '7' | 8 => '8' | _ => '9'

/-- Numeric value of a digit character. -/
def digitVal (c : Char) : Nat := c.toNat - 48

/-- Decimal representation worker (fuel-structural; `n + 1` fuel always
suffices). -/
def natReprAux : Nat → Nat → List Char
  | 0, _ => []
  | fuel + 1, n =>
    if n < 10 then [digitChar n]
    else natReprAux fuel (n / 10) ++ [digitChar (n % 10)]

/-- Decimal representation of a natural number, as interpolated by the
Python f-string. -/
def natRepr (n : Nat) : List Char := natReprAux (n + 1) n

/-- Reading a digit string back as a number (inverse of `natRepr`). -/
def parseDigits (l : List Char) : Nat :=
  l.foldl (fun a c => a * 10 + digitVal c) 0

/-- The auto-generated id `f"doc_{n}"` of `add_documents`. -/
def docId (n : Nat) : List Char := "doc_".toList ++ natRepr n

/-- The id batch `[f"doc_{existing_count + i}" for i in
range(len(texts))]` generated when `add_documents` is called without
explicit ids. -/
def genIds (existing_count n : Nat) : List (List Char) :=
  (List.range n).map (fun i => docId (existing_count + i))

/-- Collection state visible to `add_documents`/`delete`: the stored
record ids in insertion order (`collection.count()` is its length). -/
structure Collection where
  ids : List (List Char)
  deriving DecidableEq

/-- `collection.count()`. -/
def Collection.count (c : Collection) : Nat := c.ids.length

/-- `add_documents(texts)` without explicit ids: generate sequential
ids scoped by the current record count and append the new records;
returns the generated ids. -/
def addDocumentsAuto (c : Collection) (n : Nat) :
    Collection × List (List Char) :=
  let new := genIds c.count n
  (⟨c.ids ++ new⟩, new)

/-- `VectorStore.delete(ids)`: remove the records with the given
ids. -/
def deleteIds (c : Collection) (ds : List (List Char)) : Collection :=
  ⟨c.ids.filter (fun i => !ds.contains i)⟩

/-- A sequence of auto-id `add_documents` calls (batch sizes given)
starting from an empty collection. -/
def applyAutoAdds (batches : List Nat) : Collection :=
  batches.foldl (fun c n => (addDocumentsAuto c n).1) ⟨[]⟩

/-! ## Tools (`src/tools/base.py`, `src/tools/calculator.py`) -/

/-- The ASCII apostrophe quoting the tool name in the unknown-tool
error message. -/
def quoteChar : Char := Char.ofNat 39

/-- A registered tool: `run` is the tool's `execute(**kwargs)`, where
`.ok s` models a returned string and `.error msg` models a raised
exception whose `str(e)` is `msg` (argument-binding `TypeError`s are
raised at the call inside the `try` block, so they are `.error` too).
The argument type `A` is abstract (arguments arrive pre-decoded). -/
structure ToolImpl (A : Type) where
  run : A → Except (List Char) (List Char)

/-- `ToolRegistry._tools`: a name-keyed mapping. -/
def Registry (A : Type) : Type := List Char → Option (ToolImpl A)

/-- A fresh `ToolRegistry()`. -/
def Registry.empty (A : Type) : Registry A := fun _ => none

/-- `ToolRegistry.register`: Python dict assignment — an existing
binding for the same name is overwritten. -/
def Registry.register {A : Type} (reg : Registry A) (name : List Char)
    (t : ToolImpl A) : Registry A :=
  fun n => if n = name then some t else reg n

/-- `ToolRegistry.execute(tool_name, **kwargs)`: unknown names yield
the f-string `"错误: 未找到工具 '{tool_name}'"`; a known tool is run
inside `try/except Exception`, any exception becoming
`"工具执行出错: " + str(e)`. -/
def registryExecute {A : Type} (reg : Registry A) (tool_name : List Char)
    (args : A) : List Char :=
  match reg tool_name with
  | none =>
    "错误: 未找到工具 ".toList ++ [quoteChar] ++ tool_name ++ [quoteChar]
  | some t =>
    match t.run args with
    | .ok r => r
    | .error e => "工具执行出错: ".toList ++ e

/-- The character allowlist `set("0123456789+-*/().% ")` of
`CalculatorTool.execute`. -/
def calcAllowed (c : Char) : Bool :=
  ("0123456789+-*/().% ".toList).contains c

/-- Outcome of Python `eval` on an expression: a value of the
(abstract) value type `V`, or one of the exception classes the
calculator distinguishes (`ZeroDivisionError`, `SyntaxError`, or any
other `Exception` with message `msg`). -/
inductive EvalOutcome (V : Type) where
  | ok (v : V)
  | zeroDivision
  | syntaxError
  | exn (msg : List Char)

/-- `CalculatorTool.execute(expression)`: reject any character outside
the allowlist before evaluating; otherwise evaluate and map each
exception class to its error string.  The Python evaluator and the
numeric result formatting (the `isinstance(result, float)` branch) are
external to the decision logic and abstracted as `evalFn` and
`showNum`. -/
def calcExecute {V : Type} (evalFn : List Char → EvalOutcome V)
    (showNum : V → List Char) (expression : List Char) : List Char :=
  if ¬ expression.all calcAllowed then
    "错误：表达式包含不允许的字符。只支持数字和 +-*/().%".toList
  else
    match evalFn expression with
    | .ok v => showNum v
    | .zeroDivision => "错误：除数不能为零".toList
    | .syntaxError => "错误：表达式语法错误 - ".toList ++ expression
    | .exn msg => "计算错误：".toList ++ msg

/-! ## Orchestrator (`src/agent/orchestrator.py`) -/

/-- A tool-call request inside a reasoning-service response. -/
structure ToolCall where
  id : List Char
  name : List Char
  arguments : List Char
  deriving DecidableEq

/-- A reasoning-service response: the assistant content together with
the (possibly empty) `tool_calls` list. -/
structure LLMResponse where
  tool_calls : List ToolCall
  content : List Char
  deriving DecidableEq

/-- Conversation messages of the ReAct loop. -/
inductive Msg where
  | system (content : List Char)
  | user (content : List Char)
  | assistant (r : LLMResponse)
  | tool (tool_call_id : List Char) (content : List Char)
  deriving DecidableEq

/-- A reasoning-service communication failure (fatal, propagated). -/
structure ProviderError where
  msg : List Char
  deriving DecidableEq

/-- How one `AgentOrchestrator.run` call ends: a final answer from
inside the loop; a degraded answer from the forced summarization call
after budget exhaustion; a propagated provider error (from a loop call
or from the forced call); or an uncaught `json.loads` failure on a
tool call's arguments, which escapes `run`. -/
inductive RunResult where
  | answered (content : List Char)
  | forcedAnswer (content : List Char)
  | providerError (e : ProviderError)
  | forcedProviderError (e : ProviderError)
  | decodeError (msg : List Char)
  deriving DecidableEq

/-- Whether the run ended through the budget-exhaustion path. -/
def RunResult.isForced : RunResult → Bool
  | .forcedAnswer _ => true
  | .forcedProviderError _ => true
  | _ => false

/-- `AgentOrchestrator` state relevant to `run`: the iteration budget,
the tool registry, the `json.loads` decoder for argument payloads
(`.error` models a raised `JSONDecodeError`), whether any tool is
registered (`tools if tools else None`), and the system prompt. -/
structure OrchConfig (A : Type) where
  max_iterations : Nat
  registry : Registry A
  decodeArgs : List Char → Except (List Char) A
  hasTools : Bool
  system_prompt : List Char

/-- The reasoning service: maps the conversation history and the
tools-enabled flag to a response or a communication failure. -/
def LLM : Type := List Msg → Bool → Except ProviderError LLMResponse

/-- The user message appended when the iteration budget is
exhausted. -/
def forcedPrompt : List Char :=
  "请根据目前收集到的信息，给出你的最终答案。如果信息不足，请说明。".toList

/-- The per-iteration tool-dispatch loop: decode each call's
arguments with `json.loads` — a failure aborts the whole run (there is
no handler around the decode) — then execute through the registry and
record the observation message in request order. -/
def execToolCalls {A : Type} (cfg : OrchConfig A) :
    List ToolCall → Except (List Char) (List Msg)
  | [] => .ok []
  | tc :: tcs =>
    match cfg.decodeArgs tc.arguments with
    | .error m => .error m
    | .ok args =>
      match execToolCalls cfg tcs with
      | .error m => .error m
      | .ok obs => .ok (Msg.tool tc.id (registryExecute cfg.registry tc.name args) :: obs)

/-- The ReAct loop of `AgentOrchestrator.run`, with the remaining
iteration budget as fuel; returns the run outcome and the total number
of reasoning-service calls made.  Exhausted fuel is the
`达到最大迭代次数` path: append the forced prompt and make one final
call without tools. -/
def runLoop {A : Type} (cfg : OrchConfig A) (llm : LLM) :
    Nat → List Msg → Nat → RunResult × Nat
  | 0, messages, calls =>
    match llm (messages ++ [Msg.user forcedPrompt]) false with
    | .error e => (.forcedProviderError e, calls + 1)
    | .ok r => (.forcedAnswer r.content, calls + 1)
  | fuel + 1, messages, calls =>
    match llm messages cfg.hasTools with
    | .error e => (.providerError e, calls + 1)
    | .ok r =>
      if r.tool_calls.isEmpty then
        (.answered r.content, calls + 1)
      else
        match execToolCalls cfg r.tool_calls with
        | .error m => (.decodeError m, calls + 1)
        | .ok obs =>
          runLoop cfg llm fuel (messages ++ Msg.assistant r :: obs) (calls + 1)

/-- `AgentOrchestrator.run(user_question)`. -/
def AgentOrchestrator.run {A : Type} (cfg : OrchConfig A) (llm : LLM)
    (user_question : List Char) : RunResult × Nat :=
  runLoop cfg llm cfg.max_iterations
    [Msg.system cfg.system_prompt, Msg.user user_question] 0

/-! ## String lemmas -/

theorem nonWhite_append (a b : List Char) :
    nonWhite (a ++ b) = nonWhite a ++ nonWhite b := by
  simp [nonWhite]

theorem nonWhite_dropWhile (l : List Char) :
    nonWhite (l.dropWhile isPySpace) = nonWhite l := by
  induction l with
  | nil => rfl
  | cons c cs ih =>
    by_cases h : isPySpace c
    · simp [List.dropWhile_cons, h, nonWhite, ih, nonWhite] at *
      simp [h, ih]
    · simp [List.dropWhile_cons, h]

theorem nonWhite_reverse (l : List Char) :
    nonWhite l.reverse = (nonWhite l).reverse :=
  List.filter_reverse _ _

theorem nonWhite_pyStrip (s : List Char) :
    nonWhite (pyStrip s) = nonWhite s := by
  unfold pyStrip
  rw [nonWhite_reverse, nonWhite_dropWhile, nonWhite_reverse,
    nonWhite_dropWhile, List.reverse_reverse]

theorem joinSep_cons_cons (sep p : List Char) (q : List Char)
    (ps : List (List Char)) :
    joinSep sep (p :: q :: ps) = p ++ sep ++ joinSep sep (q :: ps) := rfl

theorem joinSep_head_cons (sep : List Char) (c : Char) (p : List Char)
    (ps : List (List Char)) :
    joinSep sep ((c :: p) :: ps) = c :: joinSep sep (p :: ps) := by
  cases ps with
  | nil => rfl
  | cons q qs => simp [joinSep_cons_cons]

theorem nonWhite_joinSep (sep : List Char) (hsep : ∀ c ∈ sep, isPySpace c)
    (parts : List (List Char)) :
    nonWhite (joinSep sep parts) = nonWhite parts.flatten := by
  induction parts with
  | nil => rfl
  | cons p ps ih =>
    cases ps with
    | nil => simp [joinSep, nonWhite]
    | cons q qs =>
      rw [joinSep_cons_cons, List.flatten_cons, nonWhite_append,
        nonWhite_append, nonWhite_append, ih]
      have hs : nonWhite sep = [] := by
        simp only [nonWhite, List.filter_eq_nil_iff]
        intro c hc
        simp [hsep c hc]
      simp [hs]

theorem splitOnBlank_ne_nil (l : List Char) : splitOnBlank l ≠ [] := by
  rw [splitOnBlank.eq_def]
  split
  · simp
  · simp
  · split <;> simp

theorem splitOnBlank_join (l : List Char) :
    joinSep ['\n', '\n'] (splitOnBlank l) = l := by
  induction l using splitOnBlank.induct with
  | case1 => rfl
  | case2 rest ih =>
    rw [splitOnBlank]
    obtain ⟨p, ps, hps⟩ := List.exists_cons_of_ne_nil (splitOnBlank_ne_nil rest)
    rw [hps] at ih ⊢
    rw [joinSep_cons_cons]
    simpa using ih
  | case3 c rest h hnil ih => exact absurd hnil (splitOnBlank_ne_nil rest)
  | case4 c rest h p ps hps ih =>
    rw [splitOnBlank.eq_3 c rest h, hps]
    rw [hps] at ih
    show joinSep ['\n', '\n'] ((c :: p) :: ps) = c :: rest
    rw [joinSep_head_cons, ih]

theorem nonWhite_flatten (L : List (List Char)) :
    nonWhite L.flatten = (L.map nonWhite).flatten := by
  induction L with
  | nil => rfl
  | cons p ps ih => simp [List.flatten_cons, nonWhite_append, ih]

theorem flatten_filter_nonEmpty (L : List (List Char)) :
    (L.filter (fun p => !p.isEmpty)).flatten = L.flatten := by
  induction L with
  | nil => rfl
  | cons p ps ih =>
    by_cases h : p.isEmpty
    · have hp : p = [] := by simpa using h
      simp [hp, List.filter_cons, ih]
    · simp [List.filter_cons, h, ih]

theorem nonWhite_takeWhile_space (l : List Char) :
    nonWhite (l.takeWhile isPySpace) = [] := by
  simp only [nonWhite, List.filter_eq_nil_iff]
  intro c hc
  simp [List.mem_takeWhile_imp hc]

theorem sentGo_fuel_irrel :
    ∀ (f1 : Nat) (l : List Char) (f2 : Nat), l.length ≤ f1 → l.length ≤ f2 →
      sentGo f1 l = sentGo f2 l := by
  intro f1
  induction f1 with
  | zero =>
    intro l f2 h1 _
    have : l = [] := List.eq_nil_of_length_eq_zero (Nat.le_zero.mp h1)
    subst this
    cases f2 <;> rfl
  | succ f ih =>
    intro l f2 h1 h2
    cases l with
    | nil => cases f2 <;> rfl
    | cons c rest =>
      cases f2 with
      | zero => simp at h2
      | succ g =>
        simp only [List.length_cons, Nat.succ_le_succ_iff] at h1 h2
        have hdrop :=
          (List.dropWhile_sublist (l := rest) isPySpace).length_le
        simp only [sentGo]
        by_cases h : isSentTerm c = true
        · simp only [h, if_true]
          rw [ih (rest.dropWhile isPySpace) g (by omega) (by omega)]
        · simp only [h, Bool.false_eq_true, if_false]
          rw [ih rest g h1 h2]

theorem sentSplitRaw_term (c : Char) (rest : List Char)
    (h : isSentTerm c = true) :
    sentSplitRaw (c :: rest) =
      if (rest.takeWhile isPySpace).getLast? = some '\n' then
        [c] :: [] :: sentSplitRaw (rest.dropWhile isPySpace)
      else
        [c] :: sentSplitRaw (rest.dropWhile isPySpace) := by
  show sentGo (rest.length + 1) (c :: rest) = _
  have hdrop := (List.dropWhile_sublist (l := rest) isPySpace).length_le
  simp only [sentGo, h, if_true]
  rw [sentGo_fuel_irrel rest.length (rest.dropWhile isPySpace)
    (rest.dropWhile isPySpace).length hdrop le_rfl]
  rfl

theorem sentSplitRaw_notTerm (c : Char) (rest : List Char)
    (h : ¬ isSentTerm c = true) :
    sentSplitRaw (c :: rest) =
      match sentSplitRaw rest with
      | [] => [[c]]
      | p :: ps => (c :: p) :: ps := by
  show sentGo (rest.length + 1) (c :: rest) = _
  simp only [sentGo, h, Bool.false_eq_true, if_false]
  rfl

theorem sentGo_ne_nil (fuel : Nat) (l : List Char) : sentGo fuel l ≠ [] := by
  match fuel, l with
  | _, [] =>
    cases fuel <;> simp [sentGo]
  | 0, c :: rest => simp [sentGo]
  | fuel + 1, c :: rest =>
    simp only [sentGo]
    by_cases h : isSentTerm c = true
    · simp only [h, if_true]
      split <;> simp
    · simp only [h, Bool.false_eq_true, if_false]
      split <;> simp

theorem sentSplitRaw_ne_nil (l : List Char) : sentSplitRaw l ≠ [] :=
  sentGo_ne_nil l.length l

theorem sentGo_nonWhite :
    ∀ (fuel : Nat) (l : List Char), l.length ≤ fuel →
      nonWhite (sentGo fuel l).flatten = nonWhite l := by
  intro fuel
  induction fuel with
  | zero =>
    intro l h1
    have : l = [] := List.eq_nil_of_length_eq_zero (Nat.le_zero.mp h1)
    subst this
    rfl
  | succ f ih =>
    intro l h1
    cases l with
    | nil => rfl
    | cons c rest =>
      simp only [List.length_cons, Nat.succ_le_succ_iff] at h1
      have hdrop := (List.dropWhile_sublist (l := rest) isPySpace).length_le
      have hrest : rest = rest.takeWhile isPySpace ++ rest.dropWhile isPySpace :=
        (List.takeWhile_append_dropWhile (p := isPySpace) (l := rest)).symm
      simp only [sentGo]
      by_cases h : isSentTerm c = true
      · simp only [h, if_true]
        have goal2 : nonWhite ([c] ++
            (sentGo f (rest.dropWhile isPySpace)).flatten) = nonWhite (c :: rest) := by
          rw [nonWhite_append, ih (rest.dropWhile isPySpace) (by omega)]
          conv_rhs => rw [show (c :: rest) = [c] ++ rest from rfl, hrest]
          rw [nonWhite_append, nonWhite_append, nonWhite_takeWhile_space]
          simp
        split
        · simpa using goal2
        · simpa using goal2
      · simp only [h, Bool.false_eq_true, if_false]
        obtain ⟨p, ps, hps⟩ :=
          List.exists_cons_of_ne_nil (sentGo_ne_nil f rest)
        rw [hps]
        have ihr := ih rest h1
        rw [hps] at ihr
        show nonWhite ((c :: p) :: ps).flatten = nonWhite (c :: rest)
        rw [show ((c :: p) :: ps).flatten = [c] ++ (p :: ps).flatten by simp,
          nonWhite_append, ihr,
          show (c :: rest) = [c] ++ rest from rfl, nonWhite_append]

theorem nonWhite_sentSplit (l : List Char) :
    nonWhite (sentSplitRaw l).flatten = nonWhite l :=
  sentGo_nonWhite l.length l le_rfl

theorem nonWhite_paragraphsOf (t : List Char) :
    nonWhite (paragraphsOf t).flatten = nonWhite t := by
  unfold paragraphsOf
  rw [flatten_filter_nonEmpty, nonWhite_flatten, List.map_map]
  have hmap : (nonWhite ∘ pyStrip) = nonWhite := funext nonWhite_pyStrip
  rw [hmap, ← nonWhite_flatten]
  conv_rhs =>
    rw [show t = joinSep ['\n', '\n'] (splitOnBlank t) from
      (splitOnBlank_join t).symm]
  rw [nonWhite_joinSep]
  intro c hc
  simp at hc
  rcases hc with rfl | rfl
  all_goals rfl

theorem nonWhite_sentencesOf (t : List Char) :
    nonWhite (sentencesOf t).flatten = nonWhite t := by
  unfold sentencesOf
  rw [flatten_filter_nonEmpty, nonWhite_flatten, List.map_map]
  have hmap : (nonWhite ∘ pyStrip) = nonWhite := funext nonWhite_pyStrip
  rw [hmap, ← nonWhite_flatten, nonWhite_sentSplit]

theorem chunkTexts_cons {M : Type} (c : Chunk M) (cs : List (Chunk M)) :
    chunkTexts (c :: cs) = c.text ++ chunkTexts cs := by
  simp [chunkTexts]

/-- With `min_chunk_size = 0` no assembled group is dropped, so the
accumulate/flush loop preserves all non-whitespace content of the
pending group and the remaining units. -/
theorem accumulate_nonWhite {M : Type} (cfg : Chunker) (sep : List Char)
    (base : M) (hmin : cfg.min_chunk_size = 0)
    (hsep : ∀ c ∈ sep, isPySpace c = true) :
    ∀ (us current : List (List Char)) (clen index : Nat),
      nonWhite (chunkTexts (accumulate cfg sep base us current clen index))
        = nonWhite current.flatten ++ nonWhite us.flatten := by
  intro us
  induction us with
  | nil =>
    intro current clen index
    by_cases h : current.isEmpty = true
    · have hc : current = [] := by simpa using h
      subst hc
      simp [accumulate, chunkTexts, nonWhite]
    · simp only [accumulate]
      rw [if_neg (by simpa using h), if_pos (by rw [hmin]; exact Nat.zero_le _)]
      simp only [chunkTexts, List.map_cons, List.map_nil, List.flatten_cons,
        List.flatten_nil, List.append_nil]
      rw [nonWhite_joinSep sep hsep current]
      simp [nonWhite]
  | cons u us ih =>
    intro current clen index
    by_cases hcond : cfg.chunk_size < clen + u.length ∧ ¬ current.isEmpty = true
    · rw [show accumulate cfg sep base (u :: us) current clen index
          = (if cfg.min_chunk_size ≤ (joinSep sep current).length then
              ⟨joinSep sep current, index, (base, index)⟩ ::
                accumulate cfg sep base us [u] u.length (index + 1)
            else accumulate cfg sep base us [u] u.length index) from by
        simp only [accumulate, if_pos hcond]]
      rw [if_pos (by rw [hmin]; exact Nat.zero_le _)]
      rw [chunkTexts_cons, nonWhite_append, ih [u] u.length (index + 1),
        nonWhite_joinSep sep hsep current]
      simp [nonWhite_append, List.append_assoc]
    · rw [show accumulate cfg sep base (u :: us) current clen index
          = accumulate cfg sep base us (current ++ [u]) (clen + u.length) index
          from by simp only [accumulate, if_neg hcond]]
      rw [ih (current ++ [u]) (clen + u.length) index]
      simp [nonWhite_append, List.append_assoc]

theorem split_by_paragraphs_nonWhite {M : Type} (cfg : Chunker)
    (hmin : cfg.min_chunk_size = 0) (t : List Char) (b : M) :
    nonWhite (chunkTexts (cfg.split_by_paragraphs t b)) = nonWhite t := by
  unfold Chunker.split_by_paragraphs
  rw [accumulate_nonWhite cfg ['\n', '\n'] b hmin (by decide)]
  simpa [nonWhite] using nonWhite_paragraphsOf t

theorem split_by_sentences_nonWhite {M : Type} (cfg : Chunker)
    (hmin : cfg.min_chunk_size = 0) (t : List Char) (b : M) :
    nonWhite (chunkTexts (cfg.split_by_sentences t b)) = nonWhite t := by
  unfold Chunker.split_by_sentences
  rw [accumulate_nonWhite cfg [' '] b hmin (by decide)]
  simpa [nonWhite] using nonWhite_sentencesOf t

theorem sumLen_append (a b : List (List Char)) :
    sumLen (a ++ b) = sumLen a + sumLen b := by
  simp [sumLen]

theorem joinSep_length (sep : List Char) :
    ∀ g : List (List Char), g ≠ [] →
      (joinSep sep g).length = sumLen g + sep.length * (g.length - 1) := by
  intro g
  induction g with
  | nil => intro h; exact absurd rfl h
  | cons p ps ih =>
    intro _
    cases ps with
    | nil => simp [joinSep, sumLen]
    | cons q qs =>
      rw [joinSep_cons_cons]
      have hih := ih (by simp)
      simp only [List.length_append, hih, sumLen, List.map_cons, List.sum_cons,
        List.length_cons, Nat.add_sub_cancel]
      have hmul : sep.length * (qs.length + 1)
          = sep.length * qs.length + sep.length := Nat.mul_succ _ _
      omega

/-- Shape invariant of the accumulate/flush loop: every emitted chunk
is the `sep`-join of a non-empty group of units, and a group of two or
more units has total unit length at most `chunk_size` (the loop flushed
before the total could pass the bound). -/
theorem accumulate_group_shape {M : Type} (cfg : Chunker) (sep : List Char)
    (base : M) (allU : List (List Char)) :
    ∀ (us current : List (List Char)) (clen index : Nat),
      clen = sumLen current →
      (2 ≤ current.length → sumLen current ≤ cfg.chunk_size) →
      (∀ p ∈ current, p ∈ allU) → (∀ u ∈ us, u ∈ allU) →
      ∀ ch ∈ accumulate cfg sep base us current clen index,
        ∃ g : List (List Char), g ≠ [] ∧ ch.text = joinSep sep g ∧
          (∀ p ∈ g, p ∈ allU) ∧
          (2 ≤ g.length → sumLen g ≤ cfg.chunk_size) := by
  intro us
  induction us with
  | nil =>
    intro current clen index hclen hbound hcur _ ch hch
    simp only [accumulate] at hch
    by_cases h : current.isEmpty = true
    · rw [if_pos h] at hch
      simp at hch
    · rw [if_neg h] at hch
      by_cases hk : cfg.min_chunk_size ≤ (joinSep sep current).length
      · rw [if_pos hk] at hch
        simp only [List.mem_singleton] at hch
        subst hch
        exact ⟨current, by simpa using h, rfl, hcur, hbound⟩
      · rw [if_neg hk] at hch
        simp at hch
  | cons u us ih =>
    intro current clen index hclen hbound hcur hus ch hch
    have hu : u ∈ allU := hus u (by simp)
    have hus' : ∀ v ∈ us, v ∈ allU := fun v hv => hus v (by simp [hv])
    by_cases hcond : cfg.chunk_size < clen + u.length ∧ ¬ current.isEmpty = true
    · rw [show accumulate cfg sep base (u :: us) current clen index
          = (if cfg.min_chunk_size ≤ (joinSep sep current).length then
              ⟨joinSep sep current, index, (base, index)⟩ ::
                accumulate cfg sep base us [u] u.length (index + 1)
            else accumulate cfg sep base us [u] u.length index) from by
        simp only [accumulate, if_pos hcond]] at hch
      have ihu : ∀ i, ∀ ch ∈ accumulate cfg sep base us [u] u.length i,
          ∃ g : List (List Char), g ≠ [] ∧ ch.text = joinSep sep g ∧
            (∀ p ∈ g, p ∈ allU) ∧
            (2 ≤ g.length → sumLen g ≤ cfg.chunk_size) := by
        intro i
        refine ih [u] u.length i (by simp [sumLen]) (by simp) ?_ hus'
        intro p hp
        simp only [List.mem_singleton] at hp
        subst hp
        exact hu
      by_cases hk : cfg.min_chunk_size ≤ (joinSep sep current).length
      · rw [if_pos hk] at hch
        rcases List.mem_cons.mp hch with hch | hch
        · subst hch
          exact ⟨current, by simpa using hcond.2, rfl, hcur, hbound⟩
        · exact ihu (index + 1) ch hch
      · rw [if_neg hk] at hch
        exact ihu index ch hch
    · rw [show accumulate cfg sep base (u :: us) current clen index
          = accumulate cfg sep base us (current ++ [u]) (clen + u.length) index
          from by simp only [accumulate, if_neg hcond]] at hch
      refine ih (current ++ [u]) (clen + u.length) index
        (by rw [hclen, sumLen_append]; simp [sumLen]) ?_ ?_ hus' ch hch
      · intro hlen
        by_cases hemp : current.isEmpty = true
        · have : current = [] := by simpa using hemp
          subst this
          simp at hlen
        · have hle : ¬ cfg.chunk_size < clen + u.length := by
            intro hlt
            exact hcond ⟨hlt, hemp⟩
          rw [sumLen_append, ← hclen]
          simpa [sumLen] using Nat.le_of_not_lt hle
      · intro p hp
        rcases List.mem_append.mp hp with hp | hp
        · exact hcur p hp
        · simp only [List.mem_singleton] at hp
          subst hp
          exact hu

/-- With `overlap ≥ chunk_size > 0`, `split_fixed`'s loop advances the
window start by exactly `chunk_size` per pass, so the windows partition
the input: the loop terminates within the given fuel and the emitted
chunks carry all non-whitespace content from position `start` on. -/
theorem splitFixedGo_cover {M : Type} (cfg : Chunker) (base : M)
    (text : List Char) (hcs : 0 < cfg.chunk_size)
    (hov : cfg.chunk_size ≤ cfg.overlap) :
    ∀ (fuel start index : Nat), text.length - start < fuel →
      ∃ out, splitFixedGo cfg base text fuel start index = some out ∧
        nonWhite (chunkTexts out) = nonWhite (text.drop start) := by
  intro fuel
  induction fuel with
  | zero => intro start index h; omega
  | succ f ih =>
    intro start index hf
    by_cases hs : start < text.length
    · have hnext : (if cfg.overlap < cfg.chunk_size
          then start + cfg.chunk_size - cfg.overlap
          else start + cfg.chunk_size) = start + cfg.chunk_size := by
        rw [if_neg (by omega)]
      have hsplit : (text.drop start).take cfg.chunk_size ++
          text.drop (start + cfg.chunk_size) = text.drop start := by
        rw [show text.drop (start + cfg.chunk_size)
            = (text.drop start).drop cfg.chunk_size from
          (List.drop_drop cfg.chunk_size start text).symm]
        exact List.take_append_drop cfg.chunk_size (text.drop start)
      have hrec := ih (start + cfg.chunk_size) (index + 1) (by omega)
      have hrec0 := ih (start + cfg.chunk_size) index (by omega)
      by_cases hempty : (pyStrip ((text.drop start).take cfg.chunk_size)).isEmpty = true
      · obtain ⟨out, hout, hnw⟩ := hrec0
        refine ⟨out, ?_, ?_⟩
        · rw [show splitFixedGo cfg base text (f + 1) start index
              = splitFixedGo cfg base text f (start + cfg.chunk_size) index from by
            simp only [splitFixedGo, if_pos hs, hnext, if_pos hempty]]
          exact hout
        · rw [hnw]
          have hwnw : nonWhite ((text.drop start).take cfg.chunk_size) = [] := by
            have h1 := nonWhite_pyStrip ((text.drop start).take cfg.chunk_size)
            have h2 : pyStrip ((text.drop start).take cfg.chunk_size) = [] := by
              simpa using hempty
            rw [h2] at h1
            exact h1.symm
          conv_rhs => rw [← hsplit]
          rw [nonWhite_append, hwnw, List.nil_append]
      · obtain ⟨out, hout, hnw⟩ := hrec
        refine ⟨⟨pyStrip ((text.drop start).take cfg.chunk_size), index,
          (base, index)⟩ :: out, ?_, ?_⟩
        · rw [show splitFixedGo cfg base text (f + 1) start index
              = (splitFixedGo cfg base text f (start + cfg.chunk_size)
                  (index + 1)).map
                (⟨pyStrip ((text.drop start).take cfg.chunk_size), index,
                  (base, index)⟩ :: ·) from by
            simp only [splitFixedGo, if_pos hs, hnext, if_neg hempty]]
          rw [hout]
          rfl
        · rw [chunkTexts_cons, nonWhite_append, hnw,
            nonWhite_pyStrip ((text.drop start).take cfg.chunk_size)]
          conv_rhs => rw [← hsplit]
          rw [nonWhite_append]
    · refine ⟨[], ?_, ?_⟩
      · simp only [splitFixedGo, if_neg hs]
      · rw [List.drop_eq_nil_of_le (by omega)]
        rfl

/-! ## Claim theorems: Chunker -/

/-- C1 counterexample: with the source's default configuration
(`chunk_size = 500`, `overlap = 100`, `min_chunk_size = 50`) the
non-empty input `"hi"` yields zero chunks under both the paragraph and
the sentence strategy — the chunker silently drops all content, so the
claimed losslessness fails. -/
theorem c1_counterexample :
    (Chunker.mk 500 100 50).split_by_paragraphs "hi".toList ()
        = ([] : List (Chunk Unit)) ∧
    (Chunker.mk 500 100 50).split_by_sentences "hi".toList ()
        = ([] : List (Chunk Unit)) ∧
    nonWhite "hi".toList ≠ [] := by
  decide

/-- C1 (amended): the paragraph and sentence strategies drop any
assembled chunk whose joined text is shorter than `min_chunk_size`; in
the absence of that filter (`min_chunk_size = 0`) both strategies are
lossless: concatenating the chunk texts reconstructs exactly the
non-whitespace content of the input. -/
theorem c1_lossless_without_min_filter {M : Type} (cfg : Chunker)
    (hmin : cfg.min_chunk_size = 0) (text : List Char) (b : M) :
    nonWhite (chunkTexts (cfg.split_by_paragraphs text b)) = nonWhite text ∧
    nonWhite (chunkTexts (cfg.split_by_sentences text b)) = nonWhite text :=
  ⟨split_by_paragraphs_nonWhite cfg hmin text b,
    split_by_sentences_nonWhite cfg hmin text b⟩

/-- Witness for `c1_lossless_without_min_filter` at a concrete
configuration and input. -/
theorem c1_lossless_without_min_filter_witness :
    (Chunker.mk 40 0 0).min_chunk_size = 0 ∧
    (nonWhite (chunkTexts ((Chunker.mk 40 0 0).split_by_paragraphs
        "P1 one. P1 two.\n\nP2 one.".toList ()))
      = nonWhite "P1 one. P1 two.\n\nP2 one.".toList ∧
    nonWhite (chunkTexts ((Chunker.mk 40 0 0).split_by_sentences
        "P1 one. P1 two.\n\nP2 one.".toList ()))
      = nonWhite "P1 one. P1 two.\n\nP2 one.".toList) :=
  ⟨rfl, c1_lossless_without_min_filter (Chunker.mk 40 0 0) rfl
    "P1 one. P1 two.\n\nP2 one.".toList ()⟩

/-- C2 counterexample: with `chunk_size = 9` the input
`"aaaa\n\nbbbbb"` produces a single chunk joining the two paragraphs
(total paragraph length 9 ≤ 9) whose `char_count` is 11 > 9 because of
the rejoining `"\n\n"` separator; the chunk is not a single oversized
paragraph, so `char_count ≤ chunk_size` fails as claimed. -/
theorem c2_counterexample :
    ∃ ch ∈ (Chunker.mk 9 0 0).split_by_paragraphs "aaaa\n\nbbbbb".toList (),
      9 < ch.char_count ∧
      ∀ p ∈ paragraphsOf "aaaa\n\nbbbbb".toList, ch.text ≠ p := by
  decide

/-- C2 (amended): every chunk of the paragraph (resp. sentence)
strategy is the `"\n\n"`-join (resp. `" "`-join) of a non-empty group
of paragraphs (sentences) of the input; unless the chunk is a single
unit, the total unit length is at most `chunk_size` and `char_count`
exceeds `chunk_size` by at most the separator overhead (2, resp. 1,
characters per internal boundary). -/
theorem c2_size_bound_up_to_separators {M : Type} (cfg : Chunker)
    (text : List Char) (b : M) :
    (∀ ch ∈ cfg.split_by_paragraphs text b,
      ∃ g : List (List Char), g ≠ [] ∧ ch.text = joinSep ['\n', '\n'] g ∧
        (∀ p ∈ g, p ∈ paragraphsOf text) ∧
        (g.length = 1 ∨ (sumLen g ≤ cfg.chunk_size ∧
          ch.char_count ≤ cfg.chunk_size + 2 * (g.length - 1)))) ∧
    (∀ ch ∈ cfg.split_by_sentences text b,
      ∃ g : List (List Char), g ≠ [] ∧ ch.text = joinSep [' '] g ∧
        (∀ p ∈ g, p ∈ sentencesOf text) ∧
        (g.length = 1 ∨ (sumLen g ≤ cfg.chunk_size ∧
          ch.char_count ≤ cfg.chunk_size + 1 * (g.length - 1)))) := by
  constructor
  · intro ch hch
    obtain ⟨g, hne, htext, hmem, hbound⟩ :=
      accumulate_group_shape cfg ['\n', '\n'] b (paragraphsOf text)
        (paragraphsOf text) [] 0 0 (by simp [sumLen]) (by simp)
        (by simp) (fun u hu => hu) ch hch
    refine ⟨g, hne, htext, hmem, ?_⟩
    rcases Nat.lt_or_ge g.length 2 with h1 | h2
    · left
      have := List.length_pos.mpr hne
      omega
    · right
      have hsum := hbound h2
      refine ⟨hsum, ?_⟩
      have hlen := joinSep_length ['\n', '\n'] g hne
      simp only [Chunk.char_count, htext, hlen]
      simp only [List.length_cons, List.length_nil]
      omega
  · intro ch hch
    obtain ⟨g, hne, htext, hmem, hbound⟩ :=
      accumulate_group_shape cfg [' '] b (sentencesOf text)
        (sentencesOf text) [] 0 0 (by simp [sumLen]) (by simp)
        (by simp) (fun u hu => hu) ch hch
    refine ⟨g, hne, htext, hmem, ?_⟩
    rcases Nat.lt_or_ge g.length 2 with h1 | h2
    · left
      have := List.length_pos.mpr hne
      omega
    · right
      have hsum := hbound h2
      refine ⟨hsum, ?_⟩
      have hlen := joinSep_length [' '] g hne
      simp only [Chunk.char_count, htext, hlen]
      simp only [List.length_cons, List.length_nil]
      omega

/-- Witness for `c2_size_bound_up_to_separators` at a concrete input:
the single produced chunk joins two paragraphs of total length 9 and
has `char_count` 11 ≤ 9 + 2·1. -/
theorem c2_size_bound_up_to_separators_witness :
    (⟨"aaaa\n\nbbbbb".toList, 0, ((), 0)⟩ : Chunk Unit) ∈
      (Chunker.mk 9 0 0).split_by_paragraphs "aaaa\n\nbbbbb".toList () ∧
    ∃ g : List (List Char), g ≠ [] ∧
      ("aaaa\n\nbbbbb".toList : List Char) = joinSep ['\n', '\n'] g ∧
      (∀ p ∈ g, p ∈ paragraphsOf "aaaa\n\nbbbbb".toList) ∧
      (g.length = 1 ∨ (sumLen g ≤ 9 ∧
        ("aaaa\n\nbbbbb".toList).length ≤ 9 + 2 * (g.length - 1))) := by
  refine ⟨by decide, ?_⟩
  have h := (c2_size_bound_up_to_separators (Chunker.mk 9 0 0)
    "aaaa\n\nbbbbb".toList ()).1
    (⟨"aaaa\n\nbbbbb".toList, 0, ((), 0)⟩ : Chunk Unit) (by decide)
  exact h

/-- C9: for the fixed-width strategy with `overlap ≥ chunk_size > 0`
the loop advances by `chunk_size` per pass, so it terminates (within
`length + 1` passes, modelled as returning `some`) after covering the
whole input: the emitted chunks carry all non-whitespace content. -/
theorem c9_split_fixed_terminates_and_covers {M : Type} (cfg : Chunker)
    (hcs : 0 < cfg.chunk_size) (hov : cfg.chunk_size ≤ cfg.overlap)
    (text : List Char) (b : M) :
    ∃ out, cfg.split_fixed text b = some out ∧
      nonWhite (chunkTexts out) = nonWhite text := by
  obtain ⟨out, hout, hnw⟩ := splitFixedGo_cover cfg b text hcs hov
    (text.length + 1) 0 0 (by omega)
  exact ⟨out, hout, by simpa using hnw⟩

/-- Witness for `c9_split_fixed_terminates_and_covers` with
`chunk_size = 3`, `overlap = 5` on `"abcdefgh"`. -/
theorem c9_split_fixed_terminates_and_covers_witness :
    0 < (Chunker.mk 3 5 0).chunk_size ∧
    (Chunker.mk 3 5 0).chunk_size ≤ (Chunker.mk 3 5 0).overlap ∧
    ∃ out, (Chunker.mk 3 5 0).split_fixed "abcdefgh".toList () = some out ∧
      nonWhite (chunkTexts out) = nonWhite "abcdefgh".toList :=
  ⟨by decide, by decide,
    c9_split_fixed_terminates_and_covers (Chunker.mk 3 5 0) (by decide)
      (by decide) "abcdefgh".toList ()⟩

/-! ## Vector store lemmas -/

theorem zip4_length_le {α β γ δ : Type} :
    ∀ (as : List α) (bs : List β) (cs : List γ) (ds : List δ),
      (zip4 as bs cs ds).length ≤ as.length := by
  intro as
  induction as with
  | nil => intro bs cs ds; simp [zip4]
  | cons a as ih =>
    intro bs cs ds
    cases bs with
    | nil => simp [zip4]
    | cons b bs =>
      cases cs with
      | nil => simp [zip4]
      | cons c cs =>
        cases ds with
        | nil => simp [zip4]
        | cons d ds =>
          simp only [zip4, List.length_cons]
          exact Nat.succ_le_succ (ih bs cs ds)

theorem zip4_dist_sublist {α β δ : Type} :
    ∀ (as : List α) (bs : List β) (cs : List ℚ) (ds : List δ),
      ((zip4 as bs cs ds).map (fun x => x.2.2.1)).Sublist cs := by
  intro as
  induction as with
  | nil => intro bs cs ds; simp [zip4]
  | cons a as ih =>
    intro bs cs ds
    cases bs with
    | nil => simp [zip4]
    | cons b bs =>
      cases cs with
      | nil => simp [zip4]
      | cons c cs =>
        cases ds with
        | nil => simp [zip4]
        | cons d ds =>
          simp only [zip4, List.map_cons]
          exact List.Sublist.cons₂ c (ih bs cs ds)

theorem toResult_eq_some {M : Type} (min_score : ℚ)
    (x : List Char × M × ℚ × List Char) (r : SearchResult M)
    (h : toResult min_score x = some r) :
    min_score ≤ 1 - x.2.2.1 ∧
      r = ⟨x.1, x.2.1, 1 - x.2.2.1, x.2.2.2⟩ := by
  unfold toResult at h
  by_cases hc : min_score ≤ 1 - x.2.2.1
  · rw [if_pos hc] at h
    exact ⟨hc, (Option.some_inj.mp h).symm⟩
  · rw [if_neg hc] at h
    exact absurd h (by simp)

theorem convert_scores_pairwise {M : Type} (min_score : ℚ) :
    ∀ l : List (List Char × M × ℚ × List Char),
      (l.map (fun x => x.2.2.1)).Pairwise (· ≤ ·) →
      ((l.filterMap (toResult min_score)).map SearchResult.score).Pairwise
        (fun a b => b ≤ a) := by
  intro l
  induction l with
  | nil => intro _; simp
  | cons x l ih =>
    intro hp
    rw [List.map_cons, List.pairwise_cons] at hp
    obtain ⟨hx, hl⟩ := hp
    rw [List.filterMap_cons]
    cases hxr : toResult min_score x with
    | none => exact ih hl
    | some r =>
      rw [List.map_cons, List.pairwise_cons]
      refine ⟨?_, ih hl⟩
      intro s hs
      rw [List.mem_map] at hs
      obtain ⟨r', hr', rfl⟩ := hs
      rw [List.mem_filterMap] at hr'
      obtain ⟨y, hy, hys⟩ := hr'
      obtain ⟨_, rfl⟩ := toResult_eq_some min_score y r' hys
      obtain ⟨_, rfl⟩ := toResult_eq_some min_score x r hxr
      have hxy : x.2.2.1 ≤ y.2.2.1 :=
        hx y.2.2.1 (List.mem_map.mpr ⟨y, hy, rfl⟩)
      simp only
      linarith

theorem parseDigits_append_digit (xs : List Char) (c : Char) :
    parseDigits (xs ++ [c]) = parseDigits xs * 10 + digitVal c := by
  unfold parseDigits
  rw [List.foldl_append]
  rfl

theorem digitVal_digitChar (d : Nat) (h : d < 10) :
    digitVal (digitChar d) = d := by
  interval_cases d
  all_goals rfl

theorem parseDigits_natReprAux :
    ∀ (fuel n : Nat), n + 1 ≤ fuel →
      parseDigits (natReprAux fuel n) = n := by
  intro fuel
  induction fuel with
  | zero => intro n h; omega
  | succ f ih =>
    intro n h
    by_cases hn : n < 10
    · rw [show natReprAux (f + 1) n = [digitChar n] from by
        simp only [natReprAux, if_pos hn]]
      show parseDigits ([] ++ [digitChar n]) = n
      rw [parseDigits_append_digit]
      simp [parseDigits, digitVal_digitChar n hn]
    · rw [show natReprAux (f + 1) n
          = natReprAux f (n / 10) ++ [digitChar (n % 10)] from by
        simp only [natReprAux, if_neg hn]]
      rw [parseDigits_append_digit]
      have hdiv : n / 10 < n := Nat.div_lt_self (by omega) (by omega)
      rw [ih (n / 10) (by omega)]
      rw [digitVal_digitChar (n % 10) (Nat.mod_lt n (by omega))]
      omega

theorem parseDigits_natRepr (n : Nat) : parseDigits (natRepr n) = n :=
  parseDigits_natReprAux (n + 1) n le_rfl

theorem natRepr_injective {m n : Nat} (h : natRepr m = natRepr n) :
    m = n := by
  have := parseDigits_natRepr m
  rw [h, parseDigits_natRepr] at this
  omega

theorem docId_injective {m n : Nat} (h : docId m = docId n) : m = n := by
  unfold docId at h
  exact natRepr_injective (List.append_cancel_left h)

theorem applyAutoAdds_ids_aux :
    ∀ (batches : List Nat) (c : Collection) (m : Nat),
      c.ids = (List.range m).map docId →
      (batches.foldl (fun c n => (addDocumentsAuto c n).1) c).ids
        = (List.range (m + batches.sum)).map docId := by
  intro batches
  induction batches with
  | nil =>
    intro c m hc
    simpa using hc
  | cons n ns ih =>
    intro c m hc
    rw [List.foldl_cons]
    have hcount : c.count = m := by
      simp [Collection.count, hc]
    have hnext : (addDocumentsAuto c n).1.ids
        = (List.range (m + n)).map docId := by
      simp only [addDocumentsAuto, genIds, hcount, hc]
      rw [List.range_add, List.map_append, List.map_map]
      rfl
    rw [ih (addDocumentsAuto c n).1 (m + n) hnext]
    simp only [List.sum_cons]
    rw [Nat.add_assoc]

theorem applyAutoAdds_ids (batches : List Nat) :
    (applyAutoAdds batches).ids
      = (List.range batches.sum).map docId := by
  have := applyAutoAdds_ids_aux batches ⟨[]⟩ 0 (by simp)
  simpa [applyAutoAdds] using this

/-! ## Claim theorems: Vector store -/

/-- C7: under ChromaDB's reply contract — at most `top_k` entries
(`n_results=top_k`), index-aligned lists, distances in nearest-first
(non-decreasing) order — `search`'s conversion returns at most `top_k`
results, every returned score satisfies `score = 1 - distance` of its
reply entry and `score ≥ min_score`, and the scores are non-increasing
in result order. -/
theorem c7_search_bounded_filtered_sorted {M : Type} (reply : QueryReply M)
    (top_k : Nat) (min_score : ℚ)
    (hlen : reply.documents.length ≤ top_k)
    (hsorted : reply.distances.Pairwise (· ≤ ·)) :
    (searchResults reply min_score).length ≤ top_k ∧
    (∀ r ∈ searchResults reply min_score,
      min_score ≤ r.score ∧
      ∃ x ∈ zip4 reply.documents reply.metadatas reply.distances reply.ids,
        r = ⟨x.1, x.2.1, 1 - x.2.2.1, x.2.2.2⟩) ∧
    ((searchResults reply min_score).map SearchResult.score).Pairwise
      (fun a b => b ≤ a) := by
  refine ⟨?_, ?_, ?_⟩
  · unfold searchResults
    split
    · simp
    · calc ((zip4 reply.documents reply.metadatas reply.distances
            reply.ids).filterMap (toResult min_score)).length
          ≤ (zip4 reply.documents reply.metadatas reply.distances
            reply.ids).length := List.length_filterMap_le _ _
        _ ≤ reply.documents.length := zip4_length_le _ _ _ _
        _ ≤ top_k := hlen
  · intro r hr
    unfold searchResults at hr
    split at hr
    · simp at hr
    · rw [List.mem_filterMap] at hr
      obtain ⟨x, hx, hxr⟩ := hr
      obtain ⟨hsc, rfl⟩ := toResult_eq_some min_score x r hxr
      exact ⟨hsc, x, hx, rfl⟩
  · unfold searchResults
    split
    · simp
    · refine convert_scores_pairwise min_score _ ?_
      exact List.Pairwise.sublist (zip4_dist_sublist reply.documents
        reply.metadatas reply.distances reply.ids) hsorted

/-- Witness for `c7_search_bounded_filtered_sorted` on a concrete
three-entry reply. -/
theorem c7_search_bounded_filtered_sorted_witness :
    (QueryReply.mk (M := Unit) ["a".toList, "b".toList, "c".toList]
        [(), (), ()] [0, 1, 2] ["i1".toList, "i2".toList, "i3".toList]
      ).documents.length ≤ 3 ∧
    (QueryReply.mk (M := Unit) ["a".toList, "b".toList, "c".toList]
        [(), (), ()] [0, 1, 2] ["i1".toList, "i2".toList, "i3".toList]
      ).distances.Pairwise (· ≤ ·) ∧
    ((searchResults (QueryReply.mk (M := Unit)
        ["a".toList, "b".toList, "c".toList]
        [(), (), ()] [0, 1, 2] ["i1".toList, "i2".toList, "i3".toList])
        0).length ≤ 3 ∧
      ((searchResults (QueryReply.mk (M := Unit)
        ["a".toList, "b".toList, "c".toList]
        [(), (), ()] [0, 1, 2] ["i1".toList, "i2".toList, "i3".toList])
        0).map SearchResult.score).Pairwise (fun a b => b ≤ a)) := by
  have h := c7_search_bounded_filtered_sorted
    (QueryReply.mk (M := Unit) ["a".toList, "b".toList, "c".toList]
      [(), (), ()] [0, 1, 2] ["i1".toList, "i2".toList, "i3".toList])
    3 0 (by decide) (by decide)
  exact ⟨by decide, by decide, h.1, h.2.2⟩

/-- C8 counterexample: add two documents with auto ids (`doc_0`,
`doc_1`), delete `doc_0`, then add one more document with auto ids:
the record count is back to 1, so the generated id is `doc_1`, which
collides with the id already in the collection. -/
theorem c8_counterexample :
    genIds (deleteIds (addDocumentsAuto ⟨[]⟩ 2).1 ["doc_0".toList]).count 1
        = ["doc_1".toList] ∧
    "doc_1".toList ∈ (deleteIds (addDocumentsAuto ⟨[]⟩ 2).1
        ["doc_0".toList]).ids := by
  decide

/-- C8 (amended): count-scoped sequential ids are collision-free only
while no record has been deleted: for every sequence of auto-id
`add_documents` calls starting from an empty collection, the stored
ids are pairwise distinct and the next auto-generated batch is
disjoint from them; a `delete` lowers the count and lets the next
auto-generated id collide with a stored record. -/
theorem c8_auto_ids_fresh_without_delete (batches : List Nat) (n : Nat) :
    (applyAutoAdds batches).ids.Nodup ∧
    ∀ id ∈ genIds (applyAutoAdds batches).count n,
      id ∉ (applyAutoAdds batches).ids := by
  have hids := applyAutoAdds_ids batches
  have hcount : (applyAutoAdds batches).count = batches.sum := by
    simp [Collection.count, hids]
  constructor
  · rw [hids]
    exact (List.nodup_range _).map (fun m n h => docId_injective h)
  · intro id hid hmem
    rw [hcount] at hid
    rw [hids] at hmem
    unfold genIds at hid
    rw [List.mem_map] at hid
    obtain ⟨i, hi, rfl⟩ := hid
    rw [List.mem_map] at hmem
    obtain ⟨j, hj, hij⟩ := hmem
    have := docId_injective hij
    rw [List.mem_range] at hi hj
    omega

/-- Witness for `c8_auto_ids_fresh_without_delete`: after adding
batches of 2 and 1 documents, the next auto id `doc_3` is not among
the stored ids. -/
theorem c8_auto_ids_fresh_without_delete_witness :
    "doc_3".toList ∉ (applyAutoAdds [2, 1]).ids :=
  (c8_auto_ids_fresh_without_delete [2, 1] 1).2 "doc_3".toList (by decide)

/-! ## Claim theorems: Tool registry and calculator -/

/-- C5: `ToolRegistry.execute` never raises: an unregistered name
yields the (non-empty) unknown-tool error string; an exception raised
inside a registered tool's `execute` is caught and becomes the
non-empty `"工具执行出错: "`-prefixed error string; a normal return is
passed through. -/
theorem registryExecute_some {A : Type} (reg : Registry A)
    (tool_name : List Char) (args : A) (t : ToolImpl A)
    (h : reg tool_name = some t) :
    registryExecute reg tool_name args =
      match t.run args with
      | .ok r => r
      | .error e => "工具执行出错: ".toList ++ e := by
  unfold registryExecute
  rw [h]

theorem c5_registry_execute_never_raises {A : Type} (reg : Registry A)
    (tool_name : List Char) (args : A) :
    (reg tool_name = none →
      registryExecute reg tool_name args
          = "错误: 未找到工具 ".toList ++ [quoteChar] ++ tool_name
            ++ [quoteChar] ∧
        registryExecute reg tool_name args ≠ []) ∧
    (∀ t, reg tool_name = some t → ∀ e, t.run args = .error e →
      registryExecute reg tool_name args = "工具执行出错: ".toList ++ e ∧
        registryExecute reg tool_name args ≠ []) ∧
    (∀ t, reg tool_name = some t → ∀ r, t.run args = .ok r →
      registryExecute reg tool_name args = r) := by
  refine ⟨?_, ?_, ?_⟩
  · intro h
    have heq : registryExecute reg tool_name args
        = "错误: 未找到工具 ".toList ++ [quoteChar] ++ tool_name
          ++ [quoteChar] := by
      unfold registryExecute
      rw [h]
    refine ⟨heq, ?_⟩
    rw [heq]
    intro hcontra
    have := congrArg List.length hcontra
    simp at this
  · intro t ht e he
    have heq : registryExecute reg tool_name args
        = "工具执行出错: ".toList ++ e := by
      rw [registryExecute_some reg tool_name args t ht, he]
    refine ⟨heq, ?_⟩
    rw [heq]
    intro hcontra
    have := congrArg List.length hcontra
    simp at this
  · intro t ht r hr
    rw [registryExecute_some reg tool_name args t ht, hr]

/-- Registry used by the C5 witness: one registered tool whose
`execute` raises. -/
def c5reg : Registry Unit :=
  (Registry.empty Unit).register "boom".toList
    ⟨fun _ => .error "fail".toList⟩

/-- Witness for `c5_registry_execute_never_raises`: an unknown name
and a raising tool on a concrete registry. -/
theorem c5_registry_execute_never_raises_witness :
    (registryExecute c5reg "nope".toList ()
        = "错误: 未找到工具 ".toList ++ [quoteChar] ++ "nope".toList
          ++ [quoteChar] ∧
      registryExecute c5reg "nope".toList () ≠ []) ∧
    (registryExecute c5reg "boom".toList ()
        = "工具执行出错: ".toList ++ "fail".toList ∧
      registryExecute c5reg "boom".toList () ≠ []) :=
  ⟨(c5_registry_execute_never_raises c5reg "nope".toList ()).1 rfl,
    (c5_registry_execute_never_raises c5reg "boom".toList ()).2.1
      ⟨fun _ => .error "fail".toList⟩ rfl "fail".toList rfl⟩

/-- C10: `CalculatorTool.execute` is total and never raises: an
expression with any character outside `"0123456789+-*/().% "` is
rejected with the fixed error string without the evaluator ever being
consulted (the result is the same for every evaluator), and each
evaluation exception class — `ZeroDivisionError`, `SyntaxError`, any
other `Exception` — produces its error-string result, while a normal
value is formatted and returned. -/
theorem c10_calculator_never_raises {V : Type}
    (evalFn evalFn2 : List Char → EvalOutcome V) (showNum : V → List Char)
    (expression : List Char) :
    (¬ expression.all calcAllowed = true →
      calcExecute evalFn showNum expression
          = "错误：表达式包含不允许的字符。只支持数字和 +-*/().%".toList ∧
        calcExecute evalFn showNum expression
          = calcExecute evalFn2 showNum expression) ∧
    (expression.all calcAllowed = true →
      (evalFn expression = .zeroDivision →
        calcExecute evalFn showNum expression
          = "错误：除数不能为零".toList) ∧
      (evalFn expression = .syntaxError →
        calcExecute evalFn showNum expression
          = "错误：表达式语法错误 - ".toList ++ expression) ∧
      (∀ m, evalFn expression = .exn m →
        calcExecute evalFn showNum expression
          = "计算错误：".toList ++ m) ∧
      (∀ v, evalFn expression = .ok v →
        calcExecute evalFn showNum expression = showNum v)) := by
  constructor
  · intro h
    unfold calcExecute
    rw [if_pos h, if_pos h]
    exact ⟨rfl, rfl⟩
  · intro h
    have hneg : ¬ ¬ expression.all calcAllowed = true := by simp [h]
    refine ⟨?_, ?_, ?_, ?_⟩
    · intro he
      unfold calcExecute
      rw [if_neg hneg, he]
    · intro he
      unfold calcExecute
      rw [if_neg hneg, he]
    · intro m he
      unfold calcExecute
      rw [if_neg hneg, he]
    · intro v he
      unfold calcExecute
      rw [if_neg hneg, he]

/-- Witness for `c10_calculator_never_raises`: a rejected expression
containing letters, and a division-by-zero evaluation. -/
theorem c10_calculator_never_raises_witness :
    calcExecute (V := Unit) (fun _ => .zeroDivision) (fun _ => [])
        "import os".toList
      = "错误：表达式包含不允许的字符。只支持数字和 +-*/().%".toList ∧
    calcExecute (V := Unit) (fun _ => .zeroDivision) (fun _ => [])
        "100 / 0".toList
      = "错误：除数不能为零".toList :=
  ⟨((c10_calculator_never_raises (V := Unit) (fun _ => .zeroDivision)
      (fun _ => .zeroDivision) (fun _ => []) "import os".toList).1
      (by decide)).1,
    ((c10_calculator_never_raises (V := Unit) (fun _ => .zeroDivision)
      (fun _ => .zeroDivision) (fun _ => []) "100 / 0".toList).2
      (by decide)).1 rfl⟩

/-! ## Orchestrator lemmas -/

theorem runLoop_call_count {A : Type} (cfg : OrchConfig A) (llm : LLM) :
    ∀ (fuel : Nat) (messages : List Msg) (calls : Nat),
      (runLoop cfg llm fuel messages calls).2 ≤ calls + fuel + 1 ∧
      ((runLoop cfg llm fuel messages calls).1.isForced = true →
        (runLoop cfg llm fuel messages calls).2 = calls + fuel + 1) ∧
      ((runLoop cfg llm fuel messages calls).1.isForced = false →
        (runLoop cfg llm fuel messages calls).2 ≤ calls + fuel) := by
  intro fuel
  induction fuel with
  | zero =>
    intro messages calls
    simp only [runLoop]
    split
    all_goals refine ⟨?_, ?_, ?_⟩
    all_goals simp [RunResult.isForced]
  | succ f ih =>
    intro messages calls
    simp only [runLoop]
    split
    · refine ⟨?_, ?_, ?_⟩ <;> simp [RunResult.isForced]
    · rename_i r heq
      split
      · refine ⟨?_, ?_, ?_⟩ <;> simp [RunResult.isForced]
      · split
        · refine ⟨?_, ?_, ?_⟩ <;> simp [RunResult.isForced]
        · rename_i obs heq2
          obtain ⟨h1, h2, h3⟩ := ih (messages ++ Msg.assistant r :: obs)
            (calls + 1)
          refine ⟨by omega, ?_, ?_⟩
          · intro hforced
            have := h2 hforced
            omega
          · intro hnat
            have := h3 hnat
            omega

theorem runLoop_answer_provenance {A : Type} (cfg : OrchConfig A)
    (llm : LLM) :
    ∀ (fuel : Nat) (messages : List Msg) (calls : Nat),
      (∀ a, (runLoop cfg llm fuel messages calls).1 = .answered a →
        ∃ ms r, llm ms cfg.hasTools = .ok r ∧ r.tool_calls = [] ∧
          a = r.content) ∧
      (∀ a, (runLoop cfg llm fuel messages calls).1 = .forcedAnswer a →
        ∃ ms r, llm ms false = .ok r ∧ a = r.content) := by
  intro fuel
  induction fuel with
  | zero =>
    intro messages calls
    simp only [runLoop]
    split
    · constructor
      · intro a ha
        simp at ha
      · intro a ha
        simp at ha
    · rename_i r heq
      constructor
      · intro a ha
        simp at ha
      · intro a ha
        have ha2 : a = r.content := by
          simpa using ha.symm
        exact ⟨messages ++ [Msg.user forcedPrompt], r, heq, ha2⟩
  | succ f ih =>
    intro messages calls
    simp only [runLoop]
    split
    · constructor
      · intro a ha
        simp at ha
      · intro a ha
        simp at ha
    · rename_i r heq
      split
      · rename_i hempty
        constructor
        · intro a ha
          have ha2 : a = r.content := by
            simpa using ha.symm
          exact ⟨messages, r, heq, by simpa using hempty, ha2⟩
        · intro a ha
          simp at ha
      · split
        · constructor
          · intro a ha
            simp at ha
          · intro a ha
            simp at ha
        · rename_i obs heq2
          exact ih (messages ++ Msg.assistant r :: obs) (calls + 1)

/-! ## Claim theorems: Orchestrator -/

/-- Configuration used by the C3 counterexample: the `json.loads`
model always fails. -/
def c3cfg : OrchConfig Unit :=
  ⟨10, Registry.empty Unit, fun _ => .error "Expecting value".toList,
    true, "sys".toList⟩

/-- A reasoning service that always requests one tool call whose
arguments payload is not valid JSON. -/
def c3llm : LLM := fun _ _ =>
  .ok ⟨[⟨"call_1".toList, "calculator".toList, "not json".toList⟩], []⟩

/-- C3 counterexample: when the first requested tool call's arguments
fail to decode, the failure is not converted into an observation —
`run` ends with the uncaught decode failure (modelled as
`.decodeError`); in particular the outcome is neither a final answer
nor a forced summary, contradicting the claim that the loop always
survives malformed arguments. -/
theorem c3_counterexample :
    (AgentOrchestrator.run c3cfg c3llm "q".toList).1
        = .decodeError "Expecting value".toList ∧
    (AgentOrchestrator.run c3cfg c3llm "q".toList).2 = 1 := by
  constructor
  · rfl
  · rfl

/-- C3 (amended): a `json.loads` failure on a tool call's arguments is
NOT caught: whenever the reasoning service requests tool calls and the
first call's arguments fail to decode, the exception escapes `run`
(the run ends as `.decodeError` after that single reasoning call);
only unknown tool names and exceptions inside a tool's `execute` are
converted to error-string observations. -/
theorem c3_decode_failure_escapes_run {A : Type} (cfg : OrchConfig A)
    (llm : LLM) (q : List Char) (r : LLMResponse) (tc : ToolCall)
    (tcs : List ToolCall) (m : List Char)
    (hiter : 0 < cfg.max_iterations)
    (hllm : llm [Msg.system cfg.system_prompt, Msg.user q] cfg.hasTools
      = .ok r)
    (hcalls : r.tool_calls = tc :: tcs)
    (hdec : cfg.decodeArgs tc.arguments = .error m) :
    (AgentOrchestrator.run cfg llm q).1 = .decodeError m := by
  unfold AgentOrchestrator.run
  obtain ⟨n, hn⟩ : ∃ n, cfg.max_iterations = n + 1 :=
    ⟨cfg.max_iterations - 1, by omega⟩
  rw [hn]
  simp only [runLoop, hllm]
  rw [if_neg (by simp [hcalls])]
  rw [show execToolCalls cfg r.tool_calls = .error m from by
    rw [hcalls]
    simp only [execToolCalls, hdec]]

/-- Witness for `c3_decode_failure_escapes_run`, instantiated with the
counterexample configuration. -/
theorem c3_decode_failure_escapes_run_witness :
    (AgentOrchestrator.run c3cfg c3llm "ask".toList).1
        = .decodeError "Expecting value".toList :=
  c3_decode_failure_escapes_run c3cfg c3llm "ask".toList
    ⟨[⟨"call_1".toList, "calculator".toList, "not json".toList⟩], []⟩
    ⟨"call_1".toList, "calculator".toList, "not json".toList⟩ []
    "Expecting value".toList (by decide) rfl rfl rfl

/-- A reasoning service that immediately returns an empty content with
no tool calls. -/
def c4llm : LLM := fun _ _ => .ok ⟨[], []⟩

/-- Configuration used by the C4 counterexample. -/
def c4cfg : OrchConfig Unit :=
  ⟨10, Registry.empty Unit, fun _ => .ok (), false, "sys".toList⟩

/-- C4 counterexample: when the reasoning service returns no tool
calls and empty content, `run` returns that empty string as the final
answer (the loop does not retry on empty content) — contradicting the
claim that `run` never returns a silent empty string. -/
theorem c4_counterexample :
    (AgentOrchestrator.run c4cfg c4llm "q".toList).1
        = .answered ([] : List Char) := by
  rfl

/-- C4 (amended): `run` never fabricates an answer, but it forwards
the provider's content verbatim — including an empty string: every
final answer is the content of a provider response with no tool calls,
and every forced answer is the content of the tool-free forced
summarization response; provider errors propagate, tool exceptions are
absorbed into observations, and a malformed tool-arguments payload
escapes as an uncaught decode failure. -/
theorem c4_run_outcome_provenance {A : Type} (cfg : OrchConfig A)
    (llm : LLM) (q : List Char) :
    (∀ a, (AgentOrchestrator.run cfg llm q).1 = .answered a →
      ∃ ms r, llm ms cfg.hasTools = .ok r ∧ r.tool_calls = [] ∧
        a = r.content) ∧
    (∀ a, (AgentOrchestrator.run cfg llm q).1 = .forcedAnswer a →
      ∃ ms r, llm ms false = .ok r ∧ a = r.content) :=
  runLoop_answer_provenance cfg llm cfg.max_iterations
    [Msg.system cfg.system_prompt, Msg.user q] 0

/-- Witness for `c4_run_outcome_provenance`: the empty answer of the
counterexample run is traced back to the provider response that
produced it. -/
theorem c4_run_outcome_provenance_witness :
    ∃ ms r, c4llm ms c4cfg.hasTools = .ok r ∧ r.tool_calls = [] ∧
      ([] : List Char) = r.content :=
  (c4_run_outcome_provenance c4cfg c4llm "q".toList).1 [] rfl

/-- C6: within one `run`, the ReAct loop makes at most
`max_iterations` reasoning calls; when (and only when) it ends through
the budget-exhaustion path, exactly one additional forced
summarization call is made, for a total of `max_iterations + 1`. -/
theorem c6_iteration_budget {A : Type} (cfg : OrchConfig A) (llm : LLM)
    (q : List Char) :
    (AgentOrchestrator.run cfg llm q).2 ≤ cfg.max_iterations + 1 ∧
    ((AgentOrchestrator.run cfg llm q).1.isForced = false →
      (AgentOrchestrator.run cfg llm q).2 ≤ cfg.max_iterations) ∧
    ((AgentOrchestrator.run cfg llm q).1.isForced = true →
      (AgentOrchestrator.run cfg llm q).2 = cfg.max_iterations + 1) := by
  obtain ⟨h1, h2, h3⟩ := runLoop_call_count cfg llm cfg.max_iterations
    [Msg.system cfg.system_prompt, Msg.user q] 0
  unfold AgentOrchestrator.run
  refine ⟨by omega, ?_, ?_⟩
  · intro h
    have := h3 h
    omega
  · intro h
    have := h2 h
    omega

/-- Configuration for the C6 witness: budget of one iteration. -/
def c6cfg : OrchConfig Unit :=
  ⟨1, Registry.empty Unit, fun _ => .ok (), true, "sys".toList⟩

/-- A reasoning service that always requests a (decodable) tool call,
so the loop never terminates naturally. -/
def c6llm : LLM := fun _ _ =>
  .ok ⟨[⟨"call_1".toList, "calculator".toList, "42".toList⟩], []⟩

/-- Witness for `c6_iteration_budget`: with `max_iterations = 1` and a
service that always asks for tools, the run is forced and makes
exactly 1 + 1 reasoning calls. -/
theorem c6_iteration_budget_witness :
    (AgentOrchestrator.run c6cfg c6llm "q".toList).1.isForced = true ∧
    (AgentOrchestrator.run c6cfg c6llm "q".toList).2 = 1 + 1 :=
  ⟨rfl, (c6_iteration_budget c6cfg c6llm "q".toList).2.2 rfl⟩

end AnalysisAgent
